import Mathlib

/-!
Shallow embedding of `crates/flowctl/src/catalog/list/mod.rs`:
the default-prefix resolution algorithm (`filter_default_prefixes`),
the selection builder (`to_vars`), the cursor-driven paginated fetch
engine (`fetch_paginated_live_specs`), and the draft conversion
(`into_draft`), together with theorems settling the specification
claims about them.

Catalog strings (Rust `String` / `models::Prefix` / `models::Name`) are
modelled as `List Char`; Rust's byte-wise string comparison and
`starts_with` agree with character-wise lexicographic comparison and
character-prefix testing on well-formed UTF-8, so `lexLe` and
`List.isPrefixOf` are faithful models.

The remote paged API is modelled as a deterministic scripted server:
each selection criterion is paired with the list of pages the server
returns to the successive requests for it (the continuation cursor is
carried in the page and handed back opaquely, so under a deterministic
server the interaction is fully described by this page list).
-/

/-- Decidable equality for `Except`, used to settle concrete runs of the
fallible functions by `decide`. -/
instance {ε α : Type} [DecidableEq ε] [DecidableEq α] : DecidableEq (Except ε α) :=
  fun a b =>
    match a, b with
    | .ok x, .ok y =>
      if h : x = y then isTrue (by rw [h]) else isFalse (by intro he; cases he; exact h rfl)
    | .error x, .error y =>
      if h : x = y then isTrue (by rw [h]) else isFalse (by intro he; cases he; exact h rfl)
    | .ok _, .error _ => isFalse (by intro h; cases h)
    | .error _, .ok _ => isFalse (by intro h; cases h)

namespace FlowList

/-- Catalog strings: Rust `String` modelled as its character sequence. -/
abbrev Str := List Char

/-- Rust `Ord::cmp` on strings, as a boolean `≤`: lexicographic order on
the character sequences. -/
def lexLe : Str → Str → Bool
  | [], _ => true
  | _ :: _, [] => false
  | a :: xs, b :: ys => if a < b then true else if b < a then false else lexLe xs ys

/-- models::Capability (the access level attached to a role grant). -/
inductive Capability where
  | read
  | write
  | admin
deriving DecidableEq

/-- auth::list::AuthorizedPrefix: one role grant, a catalog namespace
together with the capability the user holds on it. The Rust field
`prefix` is renamed `pfx` (`prefix` is a Lean keyword). -/
structure AuthorizedPrefix where
  pfx : Str
  user_capability : Capability
deriving DecidableEq

/-- The error produced by `filter_default_prefixes` when the kept set
exceeds `max` (the `anyhow::bail!` message carries `max`). -/
inductive FilterError where
  | ambiguousSelection (max : Nat)
deriving DecidableEq

/-- The reserved internal namespace filtered out of role grants:
`"ops/dp/"`. -/
def opsDp : Str := "ops/dp/".data

/-- `prefixes.last().is_some_and(|last| candidate.starts_with(last))`:
whether the most recently kept prefix (if any) covers the candidate. -/
def lastCovers (last : Option Str) (cand : Str) : Bool :=
  match last with
  | some l => l.isPrefixOf cand
  | none => false

/-- The single left-to-right scan of the sorted role list: keep a
candidate unless the last kept prefix is a string-prefix of it. -/
def dedupeRoles : Option Str → List AuthorizedPrefix → List Str
  | _, [] => []
  | last, c :: rest =>
    if lastCovers last c.pfx then dedupeRoles last rest
    else c.pfx :: dedupeRoles (some c.pfx) rest

/-- The comparator passed to `sort_by`: compare grants by their prefix
strings. -/
def roleLe (a b : AuthorizedPrefix) : Prop := lexLe a.pfx b.pfx = true

instance : DecidableRel roleLe := fun a b => by
  unfold roleLe; infer_instance

/-- flowctl's `filter_default_prefixes`: discard grants under the
reserved `ops/dp/` namespace, sort the rest by prefix, drop prefixes
covered by an already-kept ancestor, and fail if more than `max`
prefixes remain. Rust's stable `sort_by` is modelled by the (stable)
insertion sort with the same comparator; the scan only reads the
prefix strings, so any stable sort by prefix yields the same output. -/
def filter_default_prefixes (role_list : List AuthorizedPrefix) (max : Nat) :
    Except FilterError (List Str) :=
  let retained := role_list.filter (fun r => !(opsDp.isPrefixOf r.pfx))
  let sorted := List.insertionSort roleLe retained
  let prefixes := dedupeRoles none sorted
  if prefixes.length > max then .error (.ambiguousSelection max)
  else .ok prefixes

/-- The scan of `dedupeRoles`, expressed on the bare prefix strings. -/
def dedupePfx : Option Str → List Str → List Str
  | _, [] => []
  | last, c :: rest =>
    if lastCovers last c then dedupePfx last rest
    else c :: dedupePfx (some c) rest

/-- `lexLe` on prefix strings, as a proposition. -/
def strLe (a b : Str) : Prop := lexLe a b = true

instance : DecidableRel strLe := fun a b => by
  unfold strLe; infer_instance

/-- The resolved default-prefix set, before the size check. -/
def resolvedPrefixes (role_list : List AuthorizedPrefix) : List Str :=
  dedupeRoles none
    (List.insertionSort roleLe (role_list.filter (fun r => !(opsDp.isPrefixOf r.pfx))))

/-! ### The selection builder and the paginated fetch engine -/

/-- CatalogType: the extern enum of catalog entry types. -/
inductive CatalogType where
  | capture
  | collection
  | materialization
  | test
deriving DecidableEq

/-- The live-spec payload of a fetched record — the fields this module
reads. Identifier-like fields are simplified to `Str`. -/
structure LiveSpec where
  catalog_type : CatalogType
  model : Option Str
  last_pub_id : Str
deriving DecidableEq

/-- list_live_specs_query::SelectRef: one fetched record. `live_spec`
absent means the entry is concurrently being deleted. -/
structure SelectRef where
  catalog_name : Str
  live_spec : Option LiveSpec
deriving DecidableEq

/-- pageInfo of the paged response. -/
structure PageInfo where
  has_next_page : Bool
  end_cursor : Option Str
deriving DecidableEq

/-- One edge of the paged response. -/
structure Edge where
  node : SelectRef
deriving DecidableEq

/-- One page of the paged query response (`resp.live_specs`). -/
structure Connection where
  edges : List Edge
  page_info : PageInfo
deriving DecidableEq

/-- Modelled from the spec: `NameSelector` (crate::catalog) is outside
the given source file; this module only reads its `name` and `prefix`
argument vectors, so it is modelled as exactly those (the `prefix`
field is renamed `pfx`, a Lean keyword). -/
structure NameSelector where
  name : List Str
  pfx : List Str
deriving DecidableEq

/-- Modelled from the spec: `SpecTypeSelector` (crate::catalog) is
outside the given source file; this module only consumes the result of
its `get_single_type_selection()`, so it is modelled as that resolved
optional type filter. -/
structure SpecTypeSelector where
  single_type : Option CatalogType
deriving DecidableEq

/-- Modelled from the spec: `DataPlaneSelector` (crate::catalog) is
outside the given source file; this module only reads its
`data_plane_name` field, so it is modelled as exactly that. -/
structure DataPlaneSelector where
  data_plane_name : Option Str
deriving DecidableEq

/-- The `List` argument struct of the listing command (renamed
`ListArgs`: `List` collides with Lean's list type). -/
structure ListArgs where
  include_flows : Bool
  include_models : Bool
  name_selector : NameSelector
  type_selector : SpecTypeSelector
  data_plane_selector : DataPlaneSelector
  include_last_publication : Bool
deriving DecidableEq

/-- list_live_specs_query::LiveSpecsBy: one selection criterion. -/
inductive LiveSpecsBy where
  | PrefixAndType (pfx : Str) (catalog_type : Option CatalogType) (data_plane_name : Option Str)
  | Names (names : List Str)
deriving DecidableEq

/-- `to_vars`: one `PrefixAndType` criterion per requested prefix (in
order, sharing the type and data-plane filters), then one `Names`
criterion when explicit names were given. -/
def to_vars (args : ListArgs) : List LiveSpecsBy :=
  let data_plane_name := args.data_plane_selector.data_plane_name
  let catalog_type := args.type_selector.single_type
  let vars := args.name_selector.pfx.map
    (fun p => LiveSpecsBy.PrefixAndType p catalog_type data_plane_name)
  if args.name_selector.name.isEmpty then vars
  else vars ++ [LiveSpecsBy.Names args.name_selector.name]

/-- Page size policy: smaller batches when heavy model payloads are
requested. It only shapes the (scripted-away) network request. -/
def page_size (args : ListArgs) : Nat := if args.include_models then 50 else 200

/-- An error value yielded into the result stream by `anyhow::bail!`. -/
inductive StreamError where
  | missingNamedEntry (catalog_name : Str)
deriving DecidableEq

/-- How a run of the generator ends abnormally: either an `Err` item is
surfaced to the consumer through the stream (`bailed`, from
`anyhow::bail!`), or the process aborts via a failed assertion
(`panicked`, from `assert!`/`panic!`) — which is *not* an error value
the consumer receives. -/
inductive Terminal where
  | bailed (e : StreamError)
  | panicked (msg : Str)
deriving DecidableEq

/-- The observable result of driving the generator to completion:
`completed recs` — every record was emitted and the stream finished;
`aborted recs t` — `recs` were emitted, then the run ended with `t`;
`starved recs` — modelling artifact only: the scripted server ran out
of pages while the code demanded another fetch (never arises for
scripts that satisfy the pagination contract). -/
inductive CritOutcome where
  | completed (recs : List SelectRef)
  | aborted (recs : List SelectRef) (t : Terminal)
  | starved (recs : List SelectRef)
deriving DecidableEq

/-- The per-edge loop body: yield each record in order, but bail with
`MissingNamedEntryError` on a record with absent `live_spec` when the
listing requested explicit names (`is_by_name`). Returns the records
emitted before any bail, and the bail error if one occurred. -/
def emitEdges (by_name : Bool) : List Edge → List SelectRef × Option StreamError
  | [] => ([], none)
  | e :: rest =>
    if e.node.live_spec.isNone && by_name then
      ([], some (.missingNamedEntry e.node.catalog_name))
    else
      let tail := emitEdges by_name rest
      (e.node :: tail.1, tail.2)

/-- The message of the `assert!` guarding the pagination contract. -/
def endCursorMsg : Str := "liveSpecs pageInfo missing endCursor".data

/-- The message of the `panic!` guarding the selector precondition. -/
def emptySelectorMsg : Str :=
  "fetch_paginated_live_specs requires either a name or prefix selector".data

/-- The `'pagination` loop for one criterion, run against the scripted
page list: emit the page's edges, stop when `has_next_page` is false,
otherwise take the cursor — aborting via the assertion when it is
absent — and fetch the next page. -/
def runCriterion (by_name : Bool) : List Connection → CritOutcome
  | [] => .starved []
  | resp :: rest =>
    match emitEdges by_name resp.edges with
    | (recs, some e) => .aborted recs (.bailed e)
    | (recs, none) =>
      if !resp.page_info.has_next_page then .completed recs
      else
        match resp.page_info.end_cursor with
        | none => .aborted recs (.panicked endCursorMsg)
        | some _ =>
          match runCriterion by_name rest with
          | .completed more => .completed (recs ++ more)
          | .aborted more t => .aborted (recs ++ more) t
          | .starved more => .starved (recs ++ more)

/-- The outer loop over the criteria: run them strictly in order, each
against its own page script; the first abnormal end stops the run. -/
def runAll (by_name : Bool) : List (List Connection) → CritOutcome
  | [] => .completed []
  | script :: rest =>
    match runCriterion by_name script with
    | .completed recs =>
      match runAll by_name rest with
      | .completed more => .completed (recs ++ more)
      | .aborted more t => .aborted (recs ++ more) t
      | .starved more => .starved (recs ++ more)
    | .aborted recs t => .aborted recs t
    | .starved recs => .starved recs

/-- `fetch_paginated_live_specs`, run against a scripted server:
`scripts` pairs positionally with `to_vars args` (one page list per
criterion). The empty-selector guard is the source's `panic!`. Note
the per-record bail is keyed on `is_by_name` — computed once for the
whole listing — not on the criterion being executed. -/
def fetch_paginated_live_specs (args : ListArgs) (scripts : List (List Connection)) :
    CritOutcome :=
  if args.name_selector.name.isEmpty && args.name_selector.pfx.isEmpty then
    .aborted [] (.panicked emptySelectorMsg)
  else
    runAll (!args.name_selector.name.isEmpty) scripts

/-- The records carried by one page, in server order. -/
def pageNodes (c : Connection) : List SelectRef := c.edges.map Edge.node

/-- The records carried by one criterion's pages, in page order. -/
def scriptNodes (s : List Connection) : List SelectRef := (s.map pageNodes).flatten

/-- All records of all scripts, in criterion order, page order, then
server order. -/
def allNodes (ss : List (List Connection)) : List SelectRef := (ss.map scriptNodes).flatten

/-- No record of the page triggers the missing-named-entry bail. -/
def pageClean (by_name : Bool) (c : Connection) : Bool :=
  c.edges.all (fun e => !(e.node.live_spec.isNone && by_name))

/-- The page is clean, claims more pages, and supplies a cursor. -/
def pageContinues (by_name : Bool) (c : Connection) : Bool :=
  pageClean by_name c && c.page_info.has_next_page && c.page_info.end_cursor.isSome

/-- The page script describes a complete, contract-respecting
interaction: every page is clean, every non-final page claims more
pages and supplies a cursor, and the final page claims no more. -/
def scriptCompletes (by_name : Bool) : List Connection → Bool
  | [] => false
  | c :: rest =>
    pageClean by_name c &&
      (if c.page_info.has_next_page
       then c.page_info.end_cursor.isSome && scriptCompletes by_name rest
       else rest.isEmpty)

/-- Whether the run ended with an error value surfaced through the
stream (as opposed to completing, or dying by panic). -/
def isBailedAbort : CritOutcome → Bool
  | .aborted _ (.bailed _) => true
  | _ => false

/-! ### Draft conversion (`into_draft`) -/

/-- Modelled from the spec: `tables::synthetic_scope` (tables crate) is
outside the given source file; the claims only use the scope as an
inert tag on a row, so it is modelled as the pair of its arguments. -/
def synthetic_scope (source name : Str) : Str × Str := (source, name)

/-- One row inserted into a draft table: the arguments `into_draft`
passes to `insert_row`. -/
structure DraftRow where
  catalog_name : Str
  scope : Str × Str
  expect_pub_id : Option Str
  model : Option Str
  is_touch : Bool
deriving DecidableEq

/-- Modelled from the spec: `tables::DraftCatalog` (tables crate) is
outside the given source file; it is modelled as its four row tables,
with `insert_row` appending a row. -/
structure DraftCatalog where
  captures : List DraftRow
  collections : List DraftRow
  materializations : List DraftRow
  tests : List DraftRow
deriving DecidableEq

/-- `tables::DraftCatalog::default()`. -/
def emptyDraft : DraftCatalog := ⟨[], [], [], []⟩

/-- Dispatch of `into_draft` on `live_spec.catalog_type`: insert the row
into the table of the matching entity type. -/
def insertRow (d : DraftCatalog) (ct : CatalogType) (row : DraftRow) : DraftCatalog :=
  match ct with
  | .capture => { d with captures := d.captures ++ [row] }
  | .collection => { d with collections := d.collections ++ [row] }
  | .materialization => { d with materializations := d.materializations ++ [row] }
  | .test => { d with tests := d.tests ++ [row] }

/-- Total number of rows across the four draft tables. -/
def draftSize (d : DraftCatalog) : Nat :=
  d.captures.length + d.collections.length + d.materializations.length + d.tests.length

/-- The inner `parse` helper of `into_draft`: an absent model is
`Ok(None)`, a present model is deserialized — `fromStr` stands for the
external `serde_json::from_str` of the respective model type — and a
failure propagates. -/
def parseModel (fromStr : CatalogType → Str → Except Str Str) (ct : CatalogType) :
    Option Str → Except Str (Option Str)
  | some m =>
    match fromStr ct m with
    | .ok v => .ok (some v)
    | .error e => .error e
  | none => .ok none

/-- The loop of `into_draft` over the fetched rows, carrying the draft
catalog being built: a row with absent `live_spec` is skipped (the
`let ... else continue`); otherwise its model is parsed (`?` propagates
the failure) and a row is inserted into the matching table. -/
def into_draftAux (fromStr : CatalogType → Str → Except Str Str) :
    DraftCatalog → List SelectRef → Except Str DraftCatalog
  | acc, [] => .ok acc
  | acc, row :: rest =>
    match row.live_spec with
    | none => into_draftAux fromStr acc rest
    | some ls =>
      match parseModel fromStr ls.catalog_type ls.model with
      | .error e => .error e
      | .ok m =>
        into_draftAux fromStr
          (insertRow acc ls.catalog_type
            ⟨row.catalog_name, synthetic_scope "control".data row.catalog_name,
              some ls.last_pub_id, m, false⟩)
          rest

/-- flowctl's `into_draft`, parameterized by the external
deserializer. -/
def into_draft (fromStr : CatalogType → Str → Except Str Str) (specs : List SelectRef) :
    Except Str DraftCatalog :=
  into_draftAux fromStr emptyDraft specs

/-! ### Concrete inputs used by claim tests and witnesses -/

/-- The role grants of the source's `test_filter_default_prefixes`. -/
def c4Roles : List AuthorizedPrefix :=
  [⟨"wileyCo/".data, .admin⟩,
   ⟨"acmeCo/prod/anvils/".data, .admin⟩,
   ⟨"acmeCo/dev/anvils/".data, .admin⟩,
   ⟨"acmeCo/dev/tnt/".data, .admin⟩,
   ⟨"acmeCo/".data, .admin⟩,
   ⟨"acmeCo/prod/".data, .admin⟩,
   ⟨"acmeCo/foo/".data, .admin⟩,
   ⟨"coyoteCo/".data, .admin⟩]

def c3Roles : List AuthorizedPrefix := [⟨"b/".data, .read⟩, ⟨"a/".data, .write⟩]

def c7Roles : List AuthorizedPrefix :=
  [⟨"ops/dp/internal/".data, .read⟩, ⟨"acme/".data, .read⟩]

def c8RolesA : List AuthorizedPrefix := [⟨"a/".data, .read⟩, ⟨"b/".data, .write⟩]
def c8RolesB : List AuthorizedPrefix := [⟨"a/".data, .admin⟩, ⟨"b/".data, .read⟩]

def c9Roles : List AuthorizedPrefix := [⟨"b/x/".data, .read⟩, ⟨"b/".data, .read⟩]
def c9Again : List AuthorizedPrefix := [⟨"b/".data, .admin⟩]

/-- A listing that mixes a prefix selector with an explicit name. -/
def c1Args : ListArgs :=
  { include_flows := false, include_models := false,
    name_selector := { name := ["someName".data], pfx := ["pre/".data] },
    type_selector := { single_type := none },
    data_plane_selector := { data_plane_name := none },
    include_last_publication := false }

/-- A record under `pre/` whose spec is concurrently deleted. -/
def c1Record : SelectRef := ⟨"pre/a".data, none⟩

/-- Scripted pages: the `PrefixAndType` criterion returns `c1Record`
(absent spec) on a final page; the `Names` criterion would return a
live record. -/
def c1Scripts : List (List Connection) :=
  [[⟨[⟨c1Record⟩], ⟨false, none⟩⟩],
   [⟨[⟨⟨"someName".data, some ⟨.capture, none, "pub1".data⟩⟩⟩], ⟨false, none⟩⟩]]

/-- A prefix-only listing over two prefixes. -/
def c2Args : ListArgs :=
  { include_flows := false, include_models := false,
    name_selector := { name := [], pfx := ["v/".data, "w/".data] },
    type_selector := { single_type := none },
    data_plane_selector := { data_plane_name := none },
    include_last_publication := false }

def c2Rec1 : SelectRef := ⟨"v/a".data, some ⟨.collection, none, "p1".data⟩⟩
def c2Rec2 : SelectRef := ⟨"w/b".data, some ⟨.capture, none, "p2".data⟩⟩
def c2Rec3 : SelectRef := ⟨"w/c".data, some ⟨.test, none, "p3".data⟩⟩

/-- The first criterion's complete script: one final page. -/
def c2DoneScript : List Connection := [⟨[⟨c2Rec1⟩], ⟨false, none⟩⟩]

/-- A page that claims more data and supplies a cursor. -/
def c2GoodPage : Connection := ⟨[⟨c2Rec2⟩], ⟨true, some "cur1".data⟩⟩

/-- The contract-violating page: `has_next_page` with no cursor. -/
def c2BadPage : Connection := ⟨[⟨c2Rec3⟩], ⟨true, none⟩⟩

/-- A prefix-only listing over one prefix. -/
def c2CexArgs : ListArgs :=
  { include_flows := false, include_models := false,
    name_selector := { name := [], pfx := ["p/".data] },
    type_selector := { single_type := none },
    data_plane_selector := { data_plane_name := none },
    include_last_publication := false }

def c2CexScripts : List (List Connection) := [[⟨[], ⟨true, none⟩⟩]]

/-- A name-only listing. -/
def c5CexArgs : ListArgs :=
  { include_flows := false, include_models := false,
    name_selector := { name := ["a".data], pfx := [] },
    type_selector := { single_type := none },
    data_plane_selector := { data_plane_name := none },
    include_last_publication := false }

/-- One final page whose single record has an absent spec. -/
def c5CexScripts : List (List Connection) := [[⟨[⟨⟨"a".data, none⟩⟩], ⟨false, none⟩⟩]]

/-- A mixed listing: one prefix and one explicit name. -/
def c5Args : ListArgs :=
  { include_flows := false, include_models := false,
    name_selector := { name := ["n".data], pfx := ["p/".data] },
    type_selector := { single_type := none },
    data_plane_selector := { data_plane_name := none },
    include_last_publication := false }

def c5Rec1 : SelectRef := ⟨"p/a".data, some ⟨.capture, none, "q1".data⟩⟩
def c5Rec2 : SelectRef := ⟨"p/b".data, some ⟨.collection, none, "q2".data⟩⟩
def c5Rec3 : SelectRef := ⟨"p/c".data, some ⟨.materialization, none, "q3".data⟩⟩
def c5RecN : SelectRef := ⟨"n".data, some ⟨.test, none, "q4".data⟩⟩

/-- Two criteria: the prefix one paginates over two pages, the names
one answers in a single page. -/
def c5Scripts : List (List Connection) :=
  [[⟨[⟨c5Rec1⟩, ⟨c5Rec2⟩], ⟨true, some "cur".data⟩⟩, ⟨[⟨c5Rec3⟩], ⟨false, none⟩⟩],
   [⟨[⟨c5RecN⟩], ⟨false, none⟩⟩]]

def c6Args : ListArgs :=
  { include_flows := false, include_models := false,
    name_selector := { name := ["n1".data], pfx := ["p1/".data, "p2/".data] },
    type_selector := { single_type := some .capture },
    data_plane_selector := { data_plane_name := some "dp".data },
    include_last_publication := false }

/-- A deserializer that accepts every payload unchanged. -/
def c10From : CatalogType → Str → Except Str Str := fun _ s => .ok s

def c10Specs : List SelectRef :=
  [⟨"x".data, none⟩, ⟨"y".data, some ⟨.capture, some "m".data, "pub".data⟩⟩]

/-! ## Theorems -/

theorem lexLe_cons {x y : Char} {xs ys : Str} :
    lexLe (x :: xs) (y :: ys) = true ↔ x < y ∨ (x = y ∧ lexLe xs ys = true) := by
  show (if x < y then true else if y < x then false else lexLe xs ys) = true ↔ _
  by_cases h1 : x < y
  · simp [h1]
  · by_cases h2 : y < x
    · have hne : x ≠ y := fun he => absurd (he ▸ h2) (lt_irrefl x)
      simp [h1, h2, hne]
    · have hxy : x = y := le_antisymm (not_lt.mp h2) (not_lt.mp h1)
      simp [h1, h2, hxy]

theorem lexLe_refl (l : Str) : lexLe l l = true := by
  induction l with
  | nil => rfl
  | cons x xs ih => exact lexLe_cons.mpr (Or.inr ⟨rfl, ih⟩)

theorem lexLe_total (a b : Str) : lexLe a b = true ∨ lexLe b a = true := by
  induction a generalizing b with
  | nil => exact Or.inl rfl
  | cons x xs ih =>
    cases b with
    | nil => exact Or.inr rfl
    | cons y ys =>
      rcases lt_trichotomy x y with h | h | h
      · exact Or.inl (lexLe_cons.mpr (Or.inl h))
      · rcases ih ys with h' | h'
        · exact Or.inl (lexLe_cons.mpr (Or.inr ⟨h, h'⟩))
        · exact Or.inr (lexLe_cons.mpr (Or.inr ⟨h.symm, h'⟩))
      · exact Or.inr (lexLe_cons.mpr (Or.inl h))

theorem lexLe_trans {a b c : Str} (hab : lexLe a b = true) (hbc : lexLe b c = true) :
    lexLe a c = true := by
  induction a generalizing b c with
  | nil => rfl
  | cons x xs ih =>
    cases b with
    | nil => exact absurd hab (by simp [lexLe])
    | cons y ys =>
      cases c with
      | nil => exact absurd hbc (by simp [lexLe])
      | cons z zs =>
        rcases lexLe_cons.mp hab with h1 | ⟨h1, h1'⟩ <;>
          rcases lexLe_cons.mp hbc with h2 | ⟨h2, h2'⟩
        · exact lexLe_cons.mpr (Or.inl (lt_trans h1 h2))
        · exact lexLe_cons.mpr (Or.inl (h2 ▸ h1))
        · exact lexLe_cons.mpr (Or.inl (h1 ▸ h2))
        · exact lexLe_cons.mpr (Or.inr ⟨h1.trans h2, ih h1' h2'⟩)

theorem lexLe_antisymm {a b : Str} (hab : lexLe a b = true) (hba : lexLe b a = true) :
    a = b := by
  induction a generalizing b with
  | nil =>
    cases b with
    | nil => rfl
    | cons y ys => exact absurd hba (by simp [lexLe])
  | cons x xs ih =>
    cases b with
    | nil => exact absurd hab (by simp [lexLe])
    | cons y ys =>
      rcases lexLe_cons.mp hab with h1 | ⟨h1, h1'⟩ <;>
        rcases lexLe_cons.mp hba with h2 | ⟨h2, h2'⟩
      · exact absurd h2 (lt_asymm h1)
      · exact absurd (h2 ▸ h1) (lt_irrefl y)
      · exact absurd (h1 ▸ h2) (lt_irrefl y)
      · rw [h1, ih h1' h2']

theorem isPrefixOf_cons₂ {x y : Char} {xs ys : Str} :
    (x :: xs).isPrefixOf (y :: ys) = true ↔ x = y ∧ xs.isPrefixOf ys = true := by
  show (x == y && xs.isPrefixOf ys) = true ↔ _
  simp

theorem isPre_refl (l : Str) : l.isPrefixOf l = true := by
  induction l with
  | nil => rfl
  | cons x xs ih => exact isPrefixOf_cons₂.mpr ⟨rfl, ih⟩

theorem lexLe_of_isPre {a b : Str} (h : a.isPrefixOf b = true) : lexLe a b = true := by
  induction a generalizing b with
  | nil => rfl
  | cons x xs ih =>
    cases b with
    | nil => exact absurd h (by simp [List.isPrefixOf])
    | cons y ys =>
      obtain ⟨h1, h2⟩ := isPrefixOf_cons₂.mp h
      exact lexLe_cons.mpr (Or.inr ⟨h1, ih h2⟩)

/-- The load-bearing fact behind the single-scan deduplication: in
lexicographic order, every string with prefix `p` sorts before any
string that is `≥ p` but does not extend `p`. Hence comparing a
candidate only against the *last* kept prefix suffices. -/
theorem not_between_isPre {p q c : Str} (hpq : lexLe p q = true) (hqc : lexLe q c = true)
    (hnp : p.isPrefixOf q = false) (hpc : p.isPrefixOf c = true) : False := by
  induction p generalizing q c with
  | nil => exact absurd hnp (by simp [List.isPrefixOf])
  | cons x xs ih =>
    cases c with
    | nil => exact absurd hpc (by simp [List.isPrefixOf])
    | cons z zs =>
      obtain ⟨hxz, hxs⟩ := isPrefixOf_cons₂.mp hpc
      cases q with
      | nil => exact absurd hpq (by simp [lexLe])
      | cons y ys =>
        rcases lexLe_cons.mp hpq with h1 | ⟨h1, h1'⟩ <;>
          rcases lexLe_cons.mp hqc with h2 | ⟨h2, h2'⟩
        · exact absurd (lt_trans h1 h2) (hxz ▸ lt_irrefl z)
        · exact absurd (h2 ▸ h1) (hxz ▸ lt_irrefl z)
        · exact absurd (h1 ▸ h2) (hxz ▸ lt_irrefl z)
        · refine ih h1' h2' ?_ hxs
          by_contra hcon
          rw [Bool.not_eq_false] at hcon
          rw [isPrefixOf_cons₂.mpr ⟨h1, hcon⟩] at hnp
          cases hnp

theorem sortedRoles_sorted (l : List AuthorizedPrefix) :
    List.Sorted roleLe (List.insertionSort roleLe l) := by
  haveI : IsTotal AuthorizedPrefix roleLe := ⟨fun a b => lexLe_total a.pfx b.pfx⟩
  haveI : IsTrans AuthorizedPrefix roleLe := ⟨fun _ _ _ => lexLe_trans⟩
  exact List.sorted_insertionSort roleLe l

theorem strs_eq_of_perm_of_sorted {a b : List Str} (hp : a.Perm b)
    (ha : List.Sorted strLe a) (hb : List.Sorted strLe b) : a = b := by
  haveI : IsAntisymm Str strLe := ⟨fun _ _ => lexLe_antisymm⟩
  exact List.eq_of_perm_of_sorted hp ha hb

theorem dedupeRoles_map (last : Option Str) (xs : List AuthorizedPrefix) :
    dedupeRoles last xs = dedupePfx last (xs.map AuthorizedPrefix.pfx) := by
  induction xs generalizing last with
  | nil => rfl
  | cons c rest ih =>
    show (if lastCovers last c.pfx then dedupeRoles last rest else _) = _
    by_cases h : lastCovers last c.pfx
    · rw [if_pos h, ih]
      show _ = (if lastCovers last c.pfx then _ else _)
      rw [if_pos h]
    · rw [if_neg h, ih]
      show _ = (if lastCovers last c.pfx then _ else _)
      rw [if_neg h]

theorem dedupePfx_subset {y : Str} :
    ∀ (last : Option Str) (xs : List Str), y ∈ dedupePfx last xs → y ∈ xs := by
  intro last xs
  induction xs generalizing last with
  | nil => intro h; cases h
  | cons c rest ih =>
    show y ∈ (if lastCovers last c then dedupePfx last rest else _) → _
    by_cases h : lastCovers last c
    · rw [if_pos h]
      intro hm
      exact List.mem_cons_of_mem c (ih last hm)
    · rw [if_neg h]
      intro hm
      rcases List.mem_cons.mp hm with hm | hm
      · exact hm ▸ List.mem_cons_self c rest
      · exact List.mem_cons_of_mem c (ih (some c) hm)

/-- The invariant of the deduplicating scan over a sorted prefix list:
the kept prefixes are sorted and pairwise non-nested, and none of them
extends the "last kept" value the scan started from. -/
theorem dedupePfx_good :
    ∀ (xs : List Str) (last : Option Str),
      xs.Pairwise strLe →
      (∀ l, last = some l → ∀ x ∈ xs, strLe l x) →
      (dedupePfx last xs).Pairwise (fun a b => strLe a b ∧ a.isPrefixOf b = false)
      ∧ (∀ l, last = some l → ∀ y ∈ dedupePfx last xs, strLe l y ∧ l.isPrefixOf y = false) := by
  intro xs
  induction xs with
  | nil => exact fun last _ _ => ⟨List.Pairwise.nil, fun l _ y hy => absurd hy (by simp [dedupePfx])⟩
  | cons c rest ih =>
    intro last hpw hlast
    obtain ⟨hc, hrest⟩ := List.pairwise_cons.mp hpw
    by_cases h : lastCovers last c
    · have heq : dedupePfx last (c :: rest) = dedupePfx last rest := by
        show (if lastCovers last c then _ else _) = _
        rw [if_pos h]
      have := ih last hrest (fun l hl x hx => hlast l hl x (List.mem_cons_of_mem c hx))
      rw [heq]
      exact this
    · have heq : dedupePfx last (c :: rest) = c :: dedupePfx (some c) rest := by
        show (if lastCovers last c then _ else _) = _
        rw [if_neg h]
      have hsome : ∀ l, some c = some l → ∀ x ∈ rest, strLe l x := by
        intro l hl x hx
        cases hl
        exact hc x hx
      obtain ⟨tailPW, tailProp⟩ := ih (some c) hrest hsome
      rw [heq]
      constructor
      · exact List.pairwise_cons.mpr ⟨fun y hy => tailProp c rfl y hy, tailPW⟩
      · intro l hl y hy
        subst hl
        have hlc : strLe l c := hlast l rfl c (List.mem_cons_self c rest)
        have hnlc : l.isPrefixOf c = false := Bool.of_not_eq_true h
        rcases List.mem_cons.mp hy with hy | hy
        · exact hy ▸ ⟨hlc, hnlc⟩
        · obtain ⟨hcy, hncy⟩ := tailProp c rfl y hy
          refine ⟨lexLe_trans hlc hcy, ?_⟩
          by_contra hcon
          rw [Bool.not_eq_false] at hcon
          exact not_between_isPre hlc hcy hnlc hcon

/-- Scanning a list that is already pairwise non-nested (and not covered
by the incoming "last kept" value) keeps everything. -/
theorem dedupePfx_id :
    ∀ (P : List Str) (last : Option Str),
      P.Pairwise (fun a b => a.isPrefixOf b = false) →
      (∀ l, last = some l → ∀ y ∈ P, l.isPrefixOf y = false) →
      dedupePfx last P = P := by
  intro P
  induction P with
  | nil => intro last _ _; rfl
  | cons c rest ih =>
    intro last hpw hlast
    obtain ⟨hc, hrest⟩ := List.pairwise_cons.mp hpw
    have h : lastCovers last c = false := by
      cases last with
      | none => rfl
      | some l => exact hlast l rfl c (List.mem_cons_self c rest)
    show (if lastCovers last c then _ else _) = _
    rw [h]
    simp only [if_false, Bool.false_eq_true]
    rw [ih (some c) hrest (fun l hl y hy => by cases hl; exact hc y hy)]

theorem filter_eq_resolved (role_list : List AuthorizedPrefix) (max : Nat) :
    filter_default_prefixes role_list max =
      if (resolvedPrefixes role_list).length > max then .error (.ambiguousSelection max)
      else .ok (resolvedPrefixes role_list) := rfl

theorem filter_ok {rl : List AuthorizedPrefix} {max : Nat} {res : List Str}
    (h : filter_default_prefixes rl max = .ok res) :
    res = resolvedPrefixes rl ∧ res.length ≤ max := by
  by_cases hlen : (resolvedPrefixes rl).length > max
  · rw [filter_eq_resolved, if_pos hlen] at h
    cases h
  · rw [filter_eq_resolved, if_neg hlen] at h
    simp only [Except.ok.injEq] at h
    refine ⟨h.symm, ?_⟩
    rw [← h]
    omega

/-- The resolved set is sorted and pairwise non-nested. -/
theorem resolved_pairwise (rl : List AuthorizedPrefix) :
    (resolvedPrefixes rl).Pairwise (fun a b => strLe a b ∧ a.isPrefixOf b = false) := by
  have hsorted := sortedRoles_sorted (rl.filter (fun r => !(opsDp.isPrefixOf r.pfx)))
  have hkeys :
      ((List.insertionSort roleLe (rl.filter (fun r => !(opsDp.isPrefixOf r.pfx)))).map
        AuthorizedPrefix.pfx).Pairwise strLe :=
    List.Pairwise.map AuthorizedPrefix.pfx (fun _ _ hab => hab) hsorted
  have := (dedupePfx_good _ none hkeys (by intro l hl; cases hl)).1
  rw [resolvedPrefixes, dedupeRoles_map]
  exact this

/-- Every resolved prefix comes from a grant that survived the reserved
namespace filter. -/
theorem resolved_opsFree (rl : List AuthorizedPrefix) :
    ∀ y ∈ resolvedPrefixes rl, opsDp.isPrefixOf y = false := by
  intro y hy
  rw [resolvedPrefixes, dedupeRoles_map] at hy
  have hy' := dedupePfx_subset none _ hy
  rcases List.mem_map.mp hy' with ⟨r, hr, hry⟩
  have hr' : r ∈ rl.filter (fun r => !(opsDp.isPrefixOf r.pfx)) := by
    rw [List.mem_insertionSort] at hr
    exact hr
  obtain ⟨-, hprop⟩ := List.mem_filter.mp hr'
  rw [← hry]
  simpa using hprop

theorem map_pfx_filter (l : List AuthorizedPrefix) :
    (l.filter (fun r => !(opsDp.isPrefixOf r.pfx))).map AuthorizedPrefix.pfx
      = (l.map AuthorizedPrefix.pfx).filter (fun s => !(opsDp.isPrefixOf s)) := by
  induction l with
  | nil => rfl
  | cons c rest ih =>
    cases hb : opsDp.isPrefixOf c.pfx with
    | true => simp [List.filter_cons, hb, ih]
    | false => simp [List.filter_cons, hb, ih]

/-- Grant lists with identical prefix sequences have identical sorted
key sequences: a sorted permutation of the same multiset of keys. -/
theorem sorted_keys_eq {l1 l2 : List AuthorizedPrefix}
    (h : l1.map AuthorizedPrefix.pfx = l2.map AuthorizedPrefix.pfx) :
    (List.insertionSort roleLe l1).map AuthorizedPrefix.pfx
      = (List.insertionSort roleLe l2).map AuthorizedPrefix.pfx := by
  have p1 := (List.perm_insertionSort roleLe l1).map AuthorizedPrefix.pfx
  have p2' : (l1.map AuthorizedPrefix.pfx).Perm
      ((List.insertionSort roleLe l2).map AuthorizedPrefix.pfx) := by
    rw [h]
    exact ((List.perm_insertionSort roleLe l2).map AuthorizedPrefix.pfx).symm
  exact strs_eq_of_perm_of_sorted (p1.trans p2')
    (List.Pairwise.map _ (fun _ _ hab => hab) (sortedRoles_sorted l1))
    (List.Pairwise.map _ (fun _ _ hab => hab) (sortedRoles_sorted l2))

theorem resolved_eq_of_map_eq {l1 l2 : List AuthorizedPrefix}
    (h : l1.map AuthorizedPrefix.pfx = l2.map AuthorizedPrefix.pfx) :
    resolvedPrefixes l1 = resolvedPrefixes l2 := by
  rw [resolvedPrefixes, resolvedPrefixes, dedupeRoles_map, dedupeRoles_map]
  congr 1
  apply sorted_keys_eq
  rw [map_pfx_filter, map_pfx_filter, h]

/-- Claim C3: whenever default-prefix resolution succeeds, the result is
pairwise non-nested — no element at one position is a string prefix of
the element at any other position. -/
theorem claim_C3 (role_list : List AuthorizedPrefix) (max : Nat) (result : List Str)
    (h : filter_default_prefixes role_list max = .ok result)
    (i j : Nat) (hi : i < result.length) (hj : j < result.length) (hij : i ≠ j) :
    (result.get ⟨i, hi⟩).isPrefixOf (result.get ⟨j, hj⟩) = false := by
  obtain ⟨hres, -⟩ := filter_ok h
  subst hres
  have hpw := resolved_pairwise role_list
  rw [List.pairwise_iff_get] at hpw
  rcases Nat.lt_or_ge i j with hlt | hge
  · exact (hpw ⟨i, hi⟩ ⟨j, hj⟩ hlt).2
  · have hji : j < i := by omega
    obtain ⟨hle, hnp⟩ := hpw ⟨j, hj⟩ ⟨i, hi⟩ hji
    by_contra hcon
    rw [Bool.not_eq_false] at hcon
    have heq := lexLe_antisymm (lexLe_of_isPre hcon) hle
    rw [heq, isPre_refl] at hnp
    cases hnp

/-- Claim C3 witness: a concrete successful resolution whose two outputs
are not nested. -/
theorem claim_C3_witness :
    filter_default_prefixes c3Roles 5 = .ok ["a/".data, "b/".data]
    ∧ (["a/".data, "b/".data].get ⟨0, by decide⟩).isPrefixOf
        (["a/".data, "b/".data].get ⟨1, by decide⟩) = false :=
  ⟨by decide,
   claim_C3 c3Roles 5 ["a/".data, "b/".data] (by decide) 0 1 (by decide) (by decide)
     (by decide)⟩

/-- Claim C4: the source's own test vector — eight overlapping grants
resolve to exactly `[acmeCo/, coyoteCo/, wileyCo/]` under `max = 3`, and
fail with the ambiguous-selection error carrying `max` under
`max = 2`. -/
theorem claim_C4 :
    filter_default_prefixes c4Roles 3 =
      .ok ["acmeCo/".data, "coyoteCo/".data, "wileyCo/".data]
    ∧ filter_default_prefixes c4Roles 2 = .error (.ambiguousSelection 2) := by
  constructor
  · decide
  · decide

/-- Claim C7: no resolved default prefix falls under the reserved
`ops/dp/` namespace. -/
theorem claim_C7 (role_list : List AuthorizedPrefix) (max : Nat) (result : List Str)
    (h : filter_default_prefixes role_list max = .ok result) :
    ∀ y ∈ result, opsDp.isPrefixOf y = false := by
  obtain ⟨hres, -⟩ := filter_ok h
  subst hres
  exact resolved_opsFree role_list

/-- Claim C7 witness: a grant under `ops/dp/` is dropped and the kept
prefix is outside the reserved namespace. -/
theorem claim_C7_witness :
    filter_default_prefixes c7Roles 5 = .ok ["acme/".data]
    ∧ opsDp.isPrefixOf "acme/".data = false :=
  ⟨by decide, claim_C7 c7Roles 5 ["acme/".data] (by decide) "acme/".data (by decide)⟩

/-- Claim C8: resolution is oblivious to capability levels — two grant
lists with the same prefixes in the same order (capabilities arbitrary)
resolve identically, successes and failures alike. -/
theorem claim_C8 (l1 l2 : List AuthorizedPrefix) (max : Nat)
    (h : l1.map AuthorizedPrefix.pfx = l2.map AuthorizedPrefix.pfx) :
    filter_default_prefixes l1 max = filter_default_prefixes l2 max := by
  rw [filter_eq_resolved, filter_eq_resolved, resolved_eq_of_map_eq h]

/-- Claim C8 witness: concrete grant lists differing only in capability
resolve to the same result. -/
theorem claim_C8_witness :
    c8RolesA.map AuthorizedPrefix.pfx = c8RolesB.map AuthorizedPrefix.pfx
    ∧ filter_default_prefixes c8RolesA 2 = filter_default_prefixes c8RolesB 2 :=
  ⟨by decide, claim_C8 c8RolesA c8RolesB 2 (by decide)⟩

/-- Claim C9: resolution is idempotent — feeding a successful result
back in as grants (with any capabilities) under the same `max`
reproduces it. -/
theorem claim_C9 (rl l2 : List AuthorizedPrefix) (max : Nat) (P : List Str)
    (h : filter_default_prefixes rl max = .ok P)
    (h2 : l2.map AuthorizedPrefix.pfx = P) :
    filter_default_prefixes l2 max = .ok P := by
  obtain ⟨hres, hlen⟩ := filter_ok h
  have hpw := resolved_pairwise rl
  rw [← hres] at hpw
  have hops : ∀ y ∈ P, opsDp.isPrefixOf y = false := by
    intro y hy
    exact resolved_opsFree rl y (hres ▸ hy)
  have hret : l2.filter (fun r => !(opsDp.isPrefixOf r.pfx)) = l2 := by
    apply List.filter_eq_self.mpr
    intro r hr
    have hmem : r.pfx ∈ P := by
      rw [← h2]
      exact List.mem_map_of_mem AuthorizedPrefix.pfx hr
    simp [hops r.pfx hmem]
  have hkeys : (List.insertionSort roleLe l2).map AuthorizedPrefix.pfx = P := by
    apply strs_eq_of_perm_of_sorted
    · have p2 := (List.perm_insertionSort roleLe l2).map AuthorizedPrefix.pfx
      rw [h2] at p2
      exact p2
    · exact List.Pairwise.map _ (fun _ _ hab => hab) (sortedRoles_sorted l2)
    · exact hpw.imp (fun hab => hab.1)
  have hresolved : resolvedPrefixes l2 = P := by
    rw [resolvedPrefixes, hret, dedupeRoles_map, hkeys]
    exact dedupePfx_id P none (hpw.imp (fun hab => hab.2)) (by intro l hl; cases hl)
  rw [filter_eq_resolved, hresolved, if_neg (by omega)]

/-- Claim C9 witness: a concrete resolution, re-resolved from its own
output under different capabilities. -/
theorem claim_C9_witness :
    filter_default_prefixes c9Roles 1 = .ok ["b/".data]
    ∧ filter_default_prefixes c9Again 1 = .ok ["b/".data] :=
  ⟨by decide, claim_C9 c9Roles c9Again 1 ["b/".data] (by decide) (by decide)⟩

theorem emitEdges_clean {b : Bool} :
    ∀ {es : List Edge}, es.all (fun e => !(e.node.live_spec.isNone && b)) = true →
      emitEdges b es = (es.map Edge.node, none) := by
  intro es
  induction es with
  | nil => intro _; rfl
  | cons e rest ih =>
    intro h
    rw [List.all_cons, Bool.and_eq_true] at h
    obtain ⟨he, hrest⟩ := h
    have he' : (e.node.live_spec.isNone && b) = false := by
      cases hval : (e.node.live_spec.isNone && b)
      · rfl
      · rw [hval] at he; cases he
    show (if e.node.live_spec.isNone && b then _
          else ((e.node :: (emitEdges b rest).1, (emitEdges b rest).2))) = _
    rw [he']
    simp only [Bool.false_eq_true, if_false]
    rw [ih hrest]
    rfl

theorem emitEdges_page {b : Bool} {c : Connection} (h : pageClean b c = true) :
    emitEdges b c.edges = (pageNodes c, none) :=
  emitEdges_clean h

theorem runCriterion_completes {b : Bool} :
    ∀ {s : List Connection}, scriptCompletes b s = true →
      runCriterion b s = .completed (scriptNodes s) := by
  intro s
  induction s with
  | nil => intro h; cases h
  | cons c rest ih =>
    intro h
    have h' : (pageClean b c &&
        (if c.page_info.has_next_page
         then c.page_info.end_cursor.isSome && scriptCompletes b rest
         else rest.isEmpty)) = true := h
    rw [Bool.and_eq_true] at h'
    obtain ⟨hclean, hrest⟩ := h'
    have hrun := emitEdges_page hclean
    show (match emitEdges b c.edges with
          | (recs, some e) => CritOutcome.aborted recs (.bailed e)
          | (recs, none) => _) = _
    rw [hrun]
    cases hnx : c.page_info.has_next_page with
    | false =>
      rw [hnx] at hrest
      simp only [if_false, Bool.false_eq_true] at hrest
      have hempty := List.isEmpty_iff.mp hrest
      subst hempty
      simp [scriptNodes]
    | true =>
      rw [hnx] at hrest
      simp only [if_true] at hrest
      rw [Bool.and_eq_true] at hrest
      obtain ⟨hcur, hcomp⟩ := hrest
      cases hc : c.page_info.end_cursor with
      | none => rw [hc] at hcur; cases hcur
      | some cur =>
        simp only [hnx, Bool.not_true, Bool.false_eq_true, if_false, hc, ih hcomp]
        simp [scriptNodes]

theorem runAll_completes {b : Bool} :
    ∀ {ss : List (List Connection)}, (∀ s ∈ ss, scriptCompletes b s = true) →
      runAll b ss = .completed (allNodes ss) := by
  intro ss
  induction ss with
  | nil => intro _; rfl
  | cons s rest ih =>
    intro h
    have h1 := runCriterion_completes (h s (List.mem_cons_self s rest))
    have h2 := ih (fun t ht => h t (List.mem_cons_of_mem s ht))
    show (match runCriterion b s with
          | .completed recs => _
          | .aborted recs t => CritOutcome.aborted recs t
          | .starved recs => CritOutcome.starved recs) = _
    rw [h1, h2]
    simp [allNodes]

theorem runCriterion_badCursor {b : Bool} :
    ∀ (good : List Connection) (bad : Connection) (after : List Connection),
      (∀ c ∈ good, pageContinues b c = true) →
      pageClean b bad = true → bad.page_info.has_next_page = true →
      bad.page_info.end_cursor = none →
      runCriterion b (good ++ bad :: after)
        = .aborted ((good.map pageNodes).flatten ++ pageNodes bad)
            (.panicked endCursorMsg) := by
  intro good
  induction good with
  | nil =>
    intro bad after _ hclean hnext hcur
    have hrun := emitEdges_page hclean
    show (match emitEdges b bad.edges with
          | (recs, some e) => CritOutcome.aborted recs (.bailed e)
          | (recs, none) => _) = _
    rw [hrun]
    simp only [hnext, Bool.not_true, Bool.false_eq_true, if_false, hcur]
    simp
  | cons g grest ih =>
    intro bad after hgood hclean hnext hcur
    have hg := hgood g (List.mem_cons_self g grest)
    rw [pageContinues, Bool.and_eq_true, Bool.and_eq_true] at hg
    obtain ⟨⟨hgclean, hgnext⟩, hgcur⟩ := hg
    have hrun := emitEdges_page hgclean
    show (match emitEdges b g.edges with
          | (recs, some e) => CritOutcome.aborted recs (.bailed e)
          | (recs, none) => _) = _
    rw [hrun]
    cases hc : g.page_info.end_cursor with
    | none => rw [hc] at hgcur; cases hgcur
    | some cur =>
      simp only [hgnext, Bool.not_true, Bool.false_eq_true, if_false, hc]
      rw [List.append_eq,
        ih bad after (fun c hc => hgood c (List.mem_cons_of_mem g hc)) hclean hnext hcur]
      simp

theorem runAll_append_abort {b : Bool} {recs : List SelectRef} {t : Terminal} :
    ∀ (done : List (List Connection)) (script : List Connection)
      (rest : List (List Connection)),
      (∀ s ∈ done, scriptCompletes b s = true) →
      runCriterion b script = .aborted recs t →
      runAll b (done ++ script :: rest)
        = .aborted ((done.map scriptNodes).flatten ++ recs) t := by
  intro done
  induction done with
  | nil =>
    intro script rest _ habort
    show (match runCriterion b script with
          | .completed r => _
          | .aborted r t => CritOutcome.aborted r t
          | .starved r => CritOutcome.starved r) = _
    rw [habort]
    simp
  | cons d drest ih =>
    intro script rest hdone habort
    have hd := runCriterion_completes (hdone d (List.mem_cons_self d drest))
    show (match runCriterion b d with
          | .completed r => _
          | .aborted r t => CritOutcome.aborted r t
          | .starved r => CritOutcome.starved r) = _
    rw [hd, List.append_eq, ih script rest (fun s hs => hdone s (List.mem_cons_of_mem d hs)) habort]
    simp

/-- Claim C5 (amended): when every criterion's page script is a
complete, contract-respecting interaction — final page claims no more
data, every non-final page supplies a cursor, and (the amendment) no
record triggers the missing-named-entry bail, which when explicit names
are requested means every record carries a present spec — the produced
sequence is exactly the concatenation of all edges, in criterion order,
page order, and within-page server order, with length the sum of the
edge counts. -/
theorem claim_C5 (args : ListArgs) (scripts : List (List Connection))
    (hsel : (args.name_selector.name.isEmpty && args.name_selector.pfx.isEmpty) = false)
    (_hlen : scripts.length = (to_vars args).length)
    (hok : ∀ s ∈ scripts, scriptCompletes (!args.name_selector.name.isEmpty) s = true) :
    fetch_paginated_live_specs args scripts = .completed (allNodes scripts)
    ∧ (allNodes scripts).length
        = (scripts.map (fun s => (s.map (fun c => c.edges.length)).sum)).sum := by
  constructor
  · show (if args.name_selector.name.isEmpty && args.name_selector.pfx.isEmpty
          then CritOutcome.aborted [] (.panicked emptySelectorMsg)
          else runAll (!args.name_selector.name.isEmpty) scripts) = _
    rw [hsel]
    simp only [Bool.false_eq_true, if_false]
    exact runAll_completes hok
  · simp only [allNodes, List.length_flatten, List.map_map]
    congr 1
    apply List.map_congr_left
    intro s _
    simp only [Function.comp, scriptNodes, List.length_flatten, List.map_map]
    congr 1
    apply List.map_congr_left
    intro c _
    simp [Function.comp, pageNodes]

/-- Claim C5 counterexample: a name-only listing whose single final page
carries one record with an absent spec satisfies the claim's stated
pagination hypotheses, yet the sequence aborts with the
missing-named-entry error instead of emitting the edge. -/
theorem claim_C5_cex :
    fetch_paginated_live_specs c5CexArgs c5CexScripts
      = .aborted [] (.bailed (.missingNamedEntry "a".data))
    ∧ fetch_paginated_live_specs c5CexArgs c5CexScripts ≠ .completed (allNodes c5CexScripts)
    ∧ c5CexScripts.map (fun s => s.map (fun c => c.page_info.has_next_page)) = [[false]] := by
  refine ⟨by decide, by decide, by decide⟩

/-- Claim C5 witness: a two-criterion listing with pagination, run to
completion. -/
theorem claim_C5_witness :
    fetch_paginated_live_specs c5Args c5Scripts
      = .completed [c5Rec1, c5Rec2, c5Rec3, c5RecN]
    ∧ (allNodes c5Scripts).length = 4 := by
  have h := claim_C5 c5Args c5Scripts (by decide) (by decide) (by decide)
  exact ⟨h.1.trans (by decide), h.2.trans (by decide)⟩

/-- Claim C2 (amended): whenever the interaction reaches a page that
reports `has_next_page = true` without an `end_cursor`, the run aborts
at once through the pagination assertion — a panic that kills the
operation (matching the taxonomy's fatal/unrecoverable classification),
not an error value yielded into the stream — after emitting exactly the
records seen so far; no later page or criterion is consumed, so the
engine neither loops on a stale cursor nor stops silently. -/
theorem claim_C2 (args : ListArgs) (done : List (List Connection))
    (good : List Connection) (bad : Connection)
    (after : List Connection) (rest : List (List Connection))
    (hsel : (args.name_selector.name.isEmpty && args.name_selector.pfx.isEmpty) = false)
    (_hlen : (done ++ (good ++ bad :: after) :: rest).length = (to_vars args).length)
    (hdone : ∀ s ∈ done, scriptCompletes (!args.name_selector.name.isEmpty) s = true)
    (hgood : ∀ c ∈ good, pageContinues (!args.name_selector.name.isEmpty) c = true)
    (hclean : pageClean (!args.name_selector.name.isEmpty) bad = true)
    (hnext : bad.page_info.has_next_page = true)
    (hcur : bad.page_info.end_cursor = none) :
    fetch_paginated_live_specs args (done ++ (good ++ bad :: after) :: rest)
      = .aborted
          ((done.map scriptNodes).flatten ++ ((good.map pageNodes).flatten ++ pageNodes bad))
          (.panicked endCursorMsg) := by
  show (if args.name_selector.name.isEmpty && args.name_selector.pfx.isEmpty
        then CritOutcome.aborted [] (.panicked emptySelectorMsg)
        else runAll (!args.name_selector.name.isEmpty) _) = _
  rw [hsel]
  simp only [Bool.false_eq_true, if_false]
  exact runAll_append_abort done _ rest hdone
    (runCriterion_badCursor good bad after hgood hclean hnext hcur)

/-- Claim C2 counterexample: the abort is a panic (failed assertion),
not a recoverable error value surfaced to the consumer through the
stream. -/
theorem claim_C2_cex :
    fetch_paginated_live_specs c2CexArgs c2CexScripts
      = .aborted [] (.panicked endCursorMsg)
    ∧ isBailedAbort (fetch_paginated_live_specs c2CexArgs c2CexScripts) = false := by
  refine ⟨by decide, by decide⟩

/-- Claim C2 witness: after one completed criterion and one good page,
the cursorless continuing page aborts the run with the assertion
message, emitting exactly the records seen so far. -/
theorem claim_C2_witness :
    fetch_paginated_live_specs c2Args [c2DoneScript, [c2GoodPage, c2BadPage]]
      = .aborted [c2Rec1, c2Rec2, c2Rec3] (.panicked endCursorMsg) := by
  have h := claim_C2 c2Args [c2DoneScript] [c2GoodPage] c2BadPage [] []
    (by decide) (by decide) (by decide) (by decide) (by decide) (by decide) (by decide)
  exact h.trans (by decide)

/-- Claim C1 evaluation at the failing input: in a listing that mixes a
prefix with an explicit name, the record with absent spec returned by
the `PrefixAndType` criterion is *not* emitted — the run aborts with
the missing-named-entry error naming `pre/a`, because the bail is keyed
on the listing-wide `is_by_name` flag rather than the active
criterion. -/
theorem claim_C1_eval :
    to_vars c1Args
      = [LiveSpecsBy.PrefixAndType "pre/".data none none,
         LiveSpecsBy.Names ["someName".data]]
    ∧ c1Record.live_spec = none
    ∧ fetch_paginated_live_specs c1Args c1Scripts
        = .aborted [] (.bailed (.missingNamedEntry "pre/a".data)) := by
  refine ⟨by decide, by decide, by decide⟩

theorem to_vars_eq (args : ListArgs) :
    to_vars args
      = (args.name_selector.pfx.map (fun p =>
          LiveSpecsBy.PrefixAndType p args.type_selector.single_type
            args.data_plane_selector.data_plane_name))
        ++ (if args.name_selector.name.isEmpty then []
            else [LiveSpecsBy.Names args.name_selector.name]) := by
  simp only [to_vars]
  cases h : args.name_selector.name.isEmpty
  · simp [h]
  · simp [h]

/-- Claim C6: the selection builder emits one `PrefixAndType` criterion
per requested prefix, in input order, each carrying the shared type and
data-plane filters, followed by exactly one `Names` criterion exactly
when explicit names were requested (necessarily last, by the length
equation). -/
theorem claim_C6 (args : ListArgs) :
    (to_vars args).length
      = args.name_selector.pfx.length
        + (if args.name_selector.name.isEmpty then 0 else 1)
    ∧ (∀ i (hp : i < args.name_selector.pfx.length) (hv : i < (to_vars args).length),
        (to_vars args).get ⟨i, hv⟩
          = .PrefixAndType (args.name_selector.pfx.get ⟨i, hp⟩)
              args.type_selector.single_type args.data_plane_selector.data_plane_name)
    ∧ (args.name_selector.name.isEmpty = false →
        (to_vars args).getLast? = some (.Names args.name_selector.name)) := by
  refine ⟨?_, ?_, ?_⟩
  · rw [to_vars_eq]
    cases h : args.name_selector.name.isEmpty
    · simp [h]
    · simp [h]
  · intro i hp hv
    rw [List.get_eq_getElem, List.getElem_of_eq (to_vars_eq args),
      List.getElem_append_left (by simpa using hp), List.getElem_map]
    simp [List.get_eq_getElem]
  · intro h
    rw [to_vars_eq args, h]
    simp only [Bool.false_eq_true, if_false]
    exact List.getLast?_concat _

/-- Claim C6 witness: a concrete mixed selection. -/
theorem claim_C6_witness :
    (to_vars c6Args).length = 3
    ∧ (to_vars c6Args).get ⟨0, by decide⟩
        = .PrefixAndType "p1/".data (some .capture) (some "dp".data)
    ∧ (to_vars c6Args).getLast? = some (.Names ["n1".data]) := by
  obtain ⟨h1, h2, h3⟩ := claim_C6 c6Args
  refine ⟨h1.trans (by decide), ?_, (h3 (by decide)).trans (by decide)⟩
  exact (h2 0 (by decide) (by decide)).trans (by decide)

theorem insertRow_size (d : DraftCatalog) (ct : CatalogType) (row : DraftRow) :
    draftSize (insertRow d ct row) = draftSize d + 1 := by
  cases ct <;> simp [insertRow, draftSize] <;> omega

theorem into_draftAux_ok (fromStr : CatalogType → Str → Except Str Str) :
    ∀ (specs : List SelectRef) (acc : DraftCatalog),
      (∀ r ∈ specs, ∀ ls, r.live_spec = some ls → ∀ m, ls.model = some m →
        ∃ v, fromStr ls.catalog_type m = .ok v) →
      ∃ d, into_draftAux fromStr acc specs = .ok d
        ∧ draftSize d
            = draftSize acc + (specs.filter (fun r => r.live_spec.isSome)).length := by
  intro specs
  induction specs with
  | nil => exact fun acc _ => ⟨acc, rfl, by simp⟩
  | cons row rest ih =>
    intro acc h
    cases hls : row.live_spec with
    | none =>
      obtain ⟨d, hd, hsize⟩ :=
        ih acc (fun r hr => h r (List.mem_cons_of_mem row hr))
      refine ⟨d, ?_, ?_⟩
      · simp only [into_draftAux, hls]
        exact hd
      · rw [hsize]
        congr 2
        simp [List.filter_cons, hls]
    | some ls =>
      have hparse : ∃ m', parseModel fromStr ls.catalog_type ls.model = .ok m' := by
        cases hm : ls.model with
        | none => exact ⟨none, rfl⟩
        | some m =>
          obtain ⟨v, hv⟩ := h row (List.mem_cons_self row rest) ls hls m hm
          exact ⟨some v, by simp [parseModel, hv]⟩
      obtain ⟨m', hm'⟩ := hparse
      obtain ⟨d, hd, hsize⟩ :=
        ih (insertRow acc ls.catalog_type
            ⟨row.catalog_name, synthetic_scope "control".data row.catalog_name,
              some ls.last_pub_id, m', false⟩)
          (fun r hr => h r (List.mem_cons_of_mem row hr))
      refine ⟨d, ?_, ?_⟩
      · simp only [into_draftAux, hls, hm']
        exact hd
      · rw [hsize, insertRow_size]
        have : (List.filter (fun r => r.live_spec.isSome) (row :: rest)).length
            = (List.filter (fun r => r.live_spec.isSome) rest).length + 1 := by
          simp [List.filter_cons, hls]
        rw [this]
        omega

theorem into_draftAux_err (fromStr : CatalogType → Str → Except Str Str) :
    ∀ (specs : List SelectRef) (acc : DraftCatalog) (e : Str),
      into_draftAux fromStr acc specs = .error e →
      ∃ r ∈ specs, ∃ ls, r.live_spec = some ls
        ∧ ∃ m, ls.model = some m ∧ fromStr ls.catalog_type m = .error e := by
  intro specs
  induction specs with
  | nil => intro acc e h; cases h
  | cons row rest ih =>
    intro acc e h
    cases hls : row.live_spec with
    | none =>
      simp only [into_draftAux, hls] at h
      obtain ⟨r, hr, hrest⟩ := ih acc e h
      exact ⟨r, List.mem_cons_of_mem row hr, hrest⟩
    | some ls =>
      cases hpm : parseModel fromStr ls.catalog_type ls.model with
      | error e' =>
        simp only [into_draftAux, hls, hpm] at h
        cases h
        cases hm : ls.model with
        | none => rw [hm] at hpm; cases hpm
        | some m =>
          rw [hm] at hpm
          cases hf : fromStr ls.catalog_type m with
          | ok v => simp [parseModel, hf] at hpm
          | error e'' =>
            simp only [parseModel, hf, Except.error.injEq] at hpm
            exact ⟨row, List.mem_cons_self row rest, ls, hls, m, hm, by rw [hf, hpm]⟩
      | ok m' =>
        simp only [into_draftAux, hls, hpm] at h
        obtain ⟨r, hr, hrest⟩ := ih _ e h
        exact ⟨r, List.mem_cons_of_mem row hr, hrest⟩

/-- Claim C10: converting fetched records into a draft skips records
with absent specs silently — it can only fail when a present model
payload fails to deserialize — and on success the draft holds exactly
one row per input record with a present spec. Stated for every
deserializer `fromStr`. -/
theorem claim_C10 (fromStr : CatalogType → Str → Except Str Str) (specs : List SelectRef) :
    ((∀ r ∈ specs, ∀ ls, r.live_spec = some ls → ∀ m, ls.model = some m →
        ∃ v, fromStr ls.catalog_type m = .ok v) →
      ∃ d, into_draft fromStr specs = .ok d
        ∧ draftSize d = (specs.filter (fun r => r.live_spec.isSome)).length)
    ∧ (∀ e, into_draft fromStr specs = .error e →
        ∃ r ∈ specs, ∃ ls, r.live_spec = some ls
          ∧ ∃ m, ls.model = some m ∧ fromStr ls.catalog_type m = .error e) := by
  constructor
  · intro h
    obtain ⟨d, hd, hsize⟩ := into_draftAux_ok fromStr specs emptyDraft h
    exact ⟨d, hd, by simpa [emptyDraft, draftSize] using hsize⟩
  · intro e he
    exact into_draftAux_err fromStr specs emptyDraft e he

/-- Claim C10 witness: one absent-spec record is skipped and the
present-spec record becomes the single draft row. -/
theorem claim_C10_witness :
    ∃ d, into_draft c10From c10Specs = .ok d ∧ draftSize d = 1 := by
  have h := (claim_C10 c10From c10Specs).1
    (by
      intro r hr ls hls m hm
      exact ⟨m, rfl⟩)
  obtain ⟨d, hd, hsize⟩ := h
  exact ⟨d, hd, hsize.trans (by decide)⟩

-- Sanity checks mirroring `test_filter_default_prefixes` shape.
example : filter_default_prefixes [] 5 = .ok [] := by decide
example :
    filter_default_prefixes
      [⟨"b/".data, .read⟩, ⟨"a/".data, .admin⟩, ⟨"a/x/".data, .read⟩] 2 =
      .ok ["a/".data, "b/".data] := by decide
example :
    filter_default_prefixes [⟨"ops/dp/x/".data, .read⟩, ⟨"a/".data, .read⟩] 5 =
      .ok ["a/".data] := by decide

end FlowList
